import Mathlib

/-!
Verification of the `pipeline` Go package (hyfather/pipeline).

The package chains user transformations (`ProcessFn`) into a concurrent
pipeline over channels.  We shallowly embed the package for finite runs:

* A channel's complete history is a finite list.  The consumer-visible
  trace of a channel is a `List (Event α)`: the delivered items in order,
  followed by exactly one `Event.close` when the producer closes it.
* The worker goroutine spawned by `stageFnFactory` is deterministic given
  the list of items it reads, so it is embedded as a recursive function
  from the consumed input items to the produced output trace, mirroring
  the Go loop body line by line.
* `MergeChannels` spawns one relay goroutine per input channel plus a
  coordinator that closes the output after all relays finish.  Which relay
  delivers next is scheduler-dependent, so the set of possible output item
  sequences is the inductive interleaving relation `Merge`.
* `fanningStageFnFactory` spawns `fanSize` workers that all read the same
  upstream channel.  Each item is consumed by exactly one worker, and each
  worker sees its items in upstream order, so a schedule is a split of the
  input into `fanSize` subsequences (`Merge parts input` read backwards)
  together with an interleaving of the worker outputs.
* `Pipeline.Run` takes the receiver by pointer but only reads it; we embed
  methods with explicit state passing, so `Run` returns the (unchanged)
  pipeline value together with the predicate describing the possible
  traces of the drain goroutine that owns `doneChan`.  `Run` returning
  that pair without consuming anything models its non-blocking return.
-/

namespace PipelineVerif

/-- Items are opaque Go `interface\x7b\x7d` values.  The examples in the repo feed
integers and rely on a type assertion that fails on anything else, so we
model a value as either an int or some other payload. -/
inductive GoValue : Type
  | int : Int → GoValue
  | str : String → GoValue
deriving DecidableEq

/-- ProcessFn from the source: `func(inObj interface\x7b\x7d) interface\x7b\x7d`.
Returning Go `nil` (the absent sentinel) is modelled as `none`. -/
abbrev ProcessFn (α : Type) : Type := α → Option α

/-- Consumer-visible events on a channel: a delivered item, or the close. -/
inductive Event (α : Type) : Type
  | item : α → Event α
  | close : Event α
deriving DecidableEq

/-- Items delivered by a channel trace, in order. -/
def itemsOf {α : Type} : List (Event α) → List α
  | [] => []
  | Event.item a :: t => a :: itemsOf t
  | Event.close :: t => itemsOf t

/-- Whether an event is the close of the channel. -/
def isCloseEvent {α : Type} : Event α → Bool
  | Event.close => true
  | Event.item _ => false

/-- How many times a trace closes its channel. -/
def closeCount {α : Type} (t : List (Event α)) : Nat :=
  (t.filter isCloseEvent).length

/-- The worker goroutine of `stageFnFactory`, as a function from the items
it reads off `inChan` to the trace it produces on `outChan`:

    go func() \x7b
      defer close(outChan)
      for inObj := range inChan \x7b
        if outObj := inFunc(inObj); outObj != nil \x7b
          outChan <- outObj
        \x7d
      \x7d
    \x7d()

When the input is exhausted the deferred close fires; a `some` result is
forwarded, a `none` (Go `nil`) result is dropped. -/
def stageFnFactory {α : Type} (inFunc : ProcessFn α) : List α → List (Event α)
  | [] => [Event.close]
  | inObj :: rest =>
      match inFunc inObj with
      | some outObj => Event.item outObj :: stageFnFactory inFunc rest
      | none => stageFnFactory inFunc rest

/-- One interleaving of a finite family of channel contents, as produced by
the relay goroutines of `MergeChannels`: at each step some relay whose
channel still holds a pending item delivers its next item; the merge ends
only when every channel is drained.  `Merge chans out` holds iff `out` is
a possible order of arrival on the shared output channel. -/
inductive Merge {α : Type} : List (List α) → List α → Prop
  | done (chans : List (List α)) (h : ∀ c ∈ chans, c = []) : Merge chans []
  | step (pre : List (List α)) (a : α) (rest : List α) (post : List (List α))
      (out : List α) (h : Merge (pre ++ rest :: post) out) :
      Merge (pre ++ (a :: rest) :: post) (a :: out)

/-- `MergeChannels` from the source: one relay per input channel forwards
items to `outChan`; a coordinator waits on the `sync.WaitGroup` and then
closes `outChan` exactly once.  `MergeChannels inChans t` holds iff `t` is
a possible trace of `outChan` given the contents of the inputs. -/
def MergeChannels {α : Type} (inChans : List (List α)) (t : List (Event α)) : Prop :=
  ∃ out, Merge inChans out ∧ t = out.map Event.item ++ [Event.close]

/-- `fanningStageFnFactory` at the item level: `fanSize` workers built by
`stageFnFactory` all read `inChan`.  When there is at least one worker,
they jointly drain the input, so the input is split into `fanSize`
subsequences (`Merge parts inItems`: the input is an interleaving of the
per-worker subsequences).  When `fanSize = 0` no worker reads `inChan` at
all, so the input channel's content is not constrained: the loop in the
source builds an empty channel slice and the stage is `MergeChannels(nil)`
regardless of the input (the `fanSize = 0` disjunct).  Each worker
produces its items independently and `MergeChannels` interleaves the
worker outputs; `outItems` is a possible content of the stage's output
channel. -/
def fanningStageFnFactory {α : Type} (inFunc : ProcessFn α) (fanSize : Nat)
    (inItems outItems : List α) : Prop :=
  ∃ parts : List (List α), parts.length = fanSize ∧
    (fanSize = 0 ∨ Merge parts inItems) ∧
    Merge (parts.map (fun part => itemsOf (stageFnFactory inFunc part))) outItems

/-- The trace of a fanned stage's output channel: the worker channels are
merged by `MergeChannels`, which also closes the output.  As above, only a
positive number of workers consumes the input; with `fanSize = 0` the
output trace is the immediate close whatever the input holds. -/
def fanningStageTrace {α : Type} (inFunc : ProcessFn α) (fanSize : Nat)
    (inItems : List α) (t : List (Event α)) : Prop :=
  ∃ parts : List (List α), parts.length = fanSize ∧
    (fanSize = 0 ∨ Merge parts inItems) ∧
    MergeChannels (parts.map (fun part => itemsOf (stageFnFactory inFunc part))) t

/-- StageFn from the source, at the item level: a stage maps the content of
its input channel to the possible contents of its output channel. -/
abbrev StageFn (α : Type) : Type := List α → List α → Prop

/-- Pipeline from the source: `type Pipeline []StageFn`. -/
abbrev Pipeline (α : Type) : Type := List (StageFn α)

/-- `New()` returns an empty pipeline. -/
def Pipeline.New {α : Type} : Pipeline α := []

/-- `AddStage` appends `fanningStageFnFactory(inFunc, 1)` to `*p`. -/
def Pipeline.AddStage {α : Type} (p : Pipeline α) (inFunc : ProcessFn α) : Pipeline α :=
  p ++ [fanningStageFnFactory inFunc 1]

/-- `AddStageWithFanOut` appends `fanningStageFnFactory(inFunc, fanSize)`
to `*p` (Go `fanSize uint64` becomes `Nat`). -/
def Pipeline.AddStageWithFanOut {α : Type} (p : Pipeline α) (inFunc : ProcessFn α)
    (fanSize : Nat) : Pipeline α :=
  p ++ [fanningStageFnFactory inFunc fanSize]

/-- `AddRawStage` appends an arbitrary StageFn to `*p`. -/
def Pipeline.AddRawStage {α : Type} (p : Pipeline α) (inFunc : StageFn α) : Pipeline α :=
  p ++ [inFunc]

/-- The wiring loop of `Run`: `for _, stage := range *p \x7b inChan = stage(inChan) \x7d`.
`runStages p inChan outItems` holds iff `outItems` is a possible content of
the channel held by the local variable `inChan` after the loop. -/
def runStages {α : Type} : Pipeline α → List α → List α → Prop
  | [], inChan, outItems => outItems = inChan
  | stage :: rest, inChan, outItems => ∃ mid, stage inChan mid ∧ runStages rest mid outItems

/-- Events of the drain goroutine that owns `doneChan`: pulling one object
from the final channel, or closing `doneChan`. -/
inductive RunEvent (α : Type) : Type
  | pull : α → RunEvent α
  | done : RunEvent α
deriving DecidableEq

/-- Whether a run event is the closing of `doneChan`. -/
def isDoneEvent {α : Type} : RunEvent α → Bool
  | RunEvent.done => true
  | RunEvent.pull _ => false

/-- How many times a run trace signals `doneChan`. -/
def doneCount {α : Type} (t : List (RunEvent α)) : Nat :=
  (t.filter isDoneEvent).length

/-- The drain goroutine of `Run`, as a function from the items it reads off
the final channel to its trace:

    go func() \x7b
      defer close(doneChan)
      for range inChan \x7b \x7d
    \x7d()

Each object is pulled and discarded; when the channel closes, the deferred
close of `doneChan` fires. -/
def drainLoop {α : Type} : List α → List (RunEvent α)
  | [] => [RunEvent.done]
  | a :: rest => RunEvent.pull a :: drainLoop rest

/-- `Run` with explicit state passing for the `*Pipeline` receiver: the Go
body only reads `*p` (the loop assigns the local `inChan`, never `*p`), so
the state component is returned as received.  The second component is the
predicate describing the possible traces of the drain goroutine for this
run; `Run` hands it back immediately, which models its non-blocking
return of `doneChan`. -/
def Pipeline.Run {α : Type} (p : Pipeline α) (inChan : List α) :
    Pipeline α × (List (RunEvent α) → Prop) :=
  (p, fun t => ∃ finalOut, runStages p inChan finalOut ∧ t = drainLoop finalOut)

/-- Spec-side definition for the order-preservation claim: the input
sequence mapped through each stage's transformation in stage order, with
items a transformation maps to the absent sentinel removed. -/
def specComposedOutput {α : Type} (fs : List (ProcessFn α)) (input : List α) : List α :=
  fs.foldl (fun acc f => acc.filterMap f) input

/-- `add1` from `examples/example1.go`: increments an int, drops non-ints. -/
def add1 : ProcessFn GoValue
  | GoValue.int v => some (GoValue.int (v + 1))
  | _ => none

/-- `squareStage` from the package example test: squares an int, drops
non-ints (`slowSquare` in `examples/example1.go` is the same function up
to a sleep). -/
def squareStage : ProcessFn GoValue
  | GoValue.int v => some (GoValue.int (v * v))
  | _ => none

/-- The input channel content of the concrete scenario in the spec. -/
def input9 : List GoValue := [1, 2, 3, 4, 5, 6, 7, 8, 9].map GoValue.int

/-- The two-stage pipeline of the concrete scenario: `add1` with fan-out 1,
then `squareStage` with fan-out 1. -/
def p9 : Pipeline GoValue :=
  Pipeline.AddStage (Pipeline.AddStage Pipeline.New add1) squareStage

/-- The expected output items of the concrete scenario. -/
def expected9 : List GoValue := [4, 9, 16, 25, 36, 49, 64, 81, 100].map GoValue.int

/-! Helper lemmas about traces. -/

theorem itemsOf_append {α : Type} (s t : List (Event α)) :
    itemsOf (s ++ t) = itemsOf s ++ itemsOf t := by
  induction s with
  | nil => rfl
  | cons e s ih => cases e <;> simp [itemsOf, ih]

theorem itemsOf_map_item {α : Type} (l : List α) :
    itemsOf (l.map Event.item) = l := by
  induction l with
  | nil => rfl
  | cons a l ih => simp [itemsOf, ih]

theorem stageFnFactory_eq {α : Type} (f : ProcessFn α) (input : List α) :
    stageFnFactory f input = (input.filterMap f).map Event.item ++ [Event.close] := by
  induction input with
  | nil => rfl
  | cons a rest ih =>
      cases h : f a <;> simp [stageFnFactory, List.filterMap_cons, h, ih]

theorem itemsOf_stageFnFactory {α : Type} (f : ProcessFn α) (input : List α) :
    itemsOf (stageFnFactory f input) = input.filterMap f := by
  rw [stageFnFactory_eq, itemsOf_append, itemsOf_map_item]
  simp [itemsOf]

theorem closeCount_items_close {α : Type} (l : List α) :
    closeCount (l.map Event.item ++ [Event.close]) = 1 := by
  induction l with
  | nil => rfl
  | cons a l _ => simp [closeCount, isCloseEvent]

theorem getLast_append_single {α : Type} (l : List α) (x : α) :
    (l ++ [x]).getLast? = some x := by
  induction l with
  | nil => rfl
  | cons a l ih =>
      rw [List.cons_append, List.getLast?_cons, ih]
      cases l <;> rfl

theorem drainLoop_eq {α : Type} (l : List α) :
    drainLoop l = l.map RunEvent.pull ++ [RunEvent.done] := by
  induction l with
  | nil => rfl
  | cons a l ih => simp [drainLoop, ih]

theorem doneCount_pulls_done {α : Type} (l : List α) :
    doneCount (l.map RunEvent.pull ++ [RunEvent.done]) = 1 := by
  induction l with
  | nil => rfl
  | cons a l _ => simp [doneCount, isDoneEvent]

/-! Helper lemmas about the interleaving relation. -/

theorem Merge.perm_flatten {α : Type} {chans : List (List α)} {out : List α}
    (h : Merge chans out) : List.Perm out chans.flatten := by
  induction h with
  | done chans hc =>
      have hfl : chans.flatten = [] := by
        induction chans with
        | nil => rfl
        | cons c cs ih =>
            have hc0 : c = [] := hc c (by simp)
            have hcs : ∀ c ∈ cs, c = [] := fun c hmem => hc c (by simp [hmem])
            simp [List.flatten_cons, hc0, ih hcs]
      rw [hfl]
  | step pre a rest post out h ih =>
      have hfl : (pre ++ (a :: rest) :: post).flatten
          = pre.flatten ++ (a :: (rest ++ post.flatten)) := by
        simp [List.flatten_append, List.flatten_cons]
      have hfl2 : (pre ++ rest :: post).flatten
          = pre.flatten ++ (rest ++ post.flatten) := by
        simp [List.flatten_append, List.flatten_cons]
      rw [hfl]
      refine List.Perm.trans ?_ List.perm_middle.symm
      exact List.Perm.cons a (hfl2 ▸ ih)

theorem Merge.eq_nil_of_nil {α : Type} {out : List α} (h : Merge [] out) : out = [] :=
  List.Perm.eq_nil (Merge.perm_flatten h)

theorem Merge.nil_nil {α : Type} : Merge ([] : List (List α)) [] :=
  Merge.done [] (by simp)

theorem Merge.single_self {α : Type} (l : List α) : Merge [l] l := by
  induction l with
  | nil => exact Merge.done [[]] (by simp)
  | cons a rest ih => exact Merge.step [] a rest [] rest ih

theorem Merge.single_eq {α : Type} {chans : List (List α)} {out : List α}
    (h : Merge chans out) : ∀ l, chans = [l] → out = l := by
  induction h with
  | done chans hc =>
      intro l hl
      subst hl
      have := hc l (by simp)
      simp [this]
  | step pre a rest post out h ih =>
      intro l hl
      have hlen := congrArg List.length hl
      simp [List.length_append] at hlen
      have hpre : pre = [] := List.length_eq_zero.mp (by omega)
      have hpost : post = [] := List.length_eq_zero.mp (by omega)
      subst hpre; subst hpost
      have hout : out = rest := ih rest rfl
      simp only [List.nil_append] at hl
      have : a :: rest = l := by simpa using hl
      rw [hout, this]

theorem Merge.single_iff {α : Type} {l out : List α} :
    Merge [l] out ↔ out = l :=
  ⟨fun h => Merge.single_eq h l rfl, fun h => h ▸ Merge.single_self l⟩

theorem coe_sum_eq_flatten {α : Type} (chans : List (List α)) :
    (chans.map Multiset.ofList).sum = Multiset.ofList chans.flatten := by
  induction chans with
  | nil => rfl
  | cons c cs ih =>
      rw [List.map_cons, List.sum_cons, List.flatten_cons, ih, Multiset.coe_add]

/-! Helper lemmas about stages and the pipeline wiring. -/

theorem length_eq_one_exists {α : Type} {l : List α} (h : l.length = 1) :
    ∃ a, l = [a] := by
  cases l with
  | nil => simp at h
  | cons a t =>
      cases t with
      | nil => exact ⟨a, rfl⟩
      | cons b t => simp [List.length_cons] at h

theorem fanningStageFnFactory_one_iff {α : Type} (f : ProcessFn α)
    (input output : List α) :
    fanningStageFnFactory f 1 input output ↔ output = input.filterMap f := by
  constructor
  · rintro ⟨parts, hlen, hin, hout⟩
    rcases hin with h0 | hin
    · exact absurd h0 one_ne_zero
    obtain ⟨p, rfl⟩ := length_eq_one_exists hlen
    have hp : input = p := Merge.single_eq hin p rfl
    subst hp
    have := Merge.single_eq hout (itemsOf (stageFnFactory f input)) (by simp)
    rw [this, itemsOf_stageFnFactory]
  · intro h
    refine ⟨[input], rfl, Or.inr (Merge.single_self input), ?_⟩
    rw [h, ← itemsOf_stageFnFactory f input]
    exact Merge.single_self (itemsOf (stageFnFactory f input))

theorem fanningStageFnFactory_perm {α : Type} {f : ProcessFn α} {fanSize : Nat}
    {input output : List α} (hpos : 0 < fanSize)
    (h : fanningStageFnFactory f fanSize input output) :
    List.Perm output (input.filterMap f) := by
  obtain ⟨parts, _, hin, hout⟩ := h
  rcases hin with h0 | hin
  · exact absurd h0 (by omega)
  have h1 : List.Perm output ((parts.map (fun part =>
      itemsOf (stageFnFactory f part))).flatten) := Merge.perm_flatten hout
  have h2 : parts.map (fun part => itemsOf (stageFnFactory f part))
      = parts.map (List.filterMap f) := by
    apply List.map_congr_left
    intro part _
    exact itemsOf_stageFnFactory f part
  have h3 : (parts.map (List.filterMap f)).flatten
      = List.filterMap f parts.flatten := (List.filterMap_flatten f parts).symm
  have h4 : List.Perm (List.filterMap f parts.flatten) (input.filterMap f) :=
    List.Perm.filterMap f (Merge.perm_flatten hin).symm
  rw [h2, h3] at h1
  exact h1.trans h4

theorem runStages_fanout_one {α : Type} (fs : List (ProcessFn α)) (input : List α) :
    ∀ output, runStages (fs.map (fun f => fanningStageFnFactory f 1)) input output ↔
      output = specComposedOutput fs input := by
  induction fs generalizing input with
  | nil => intro output; simp [runStages, specComposedOutput]
  | cons f fs ih =>
      intro output
      simp only [List.map_cons, runStages]
      constructor
      · rintro ⟨mid, hstage, hrest⟩
        have hmid : mid = input.filterMap f :=
          (fanningStageFnFactory_one_iff f input mid).mp hstage
        subst hmid
        exact (ih (input.filterMap f) output).mp hrest
      · intro h
        exact ⟨input.filterMap f, (fanningStageFnFactory_one_iff f input _).mpr rfl,
          (ih (input.filterMap f) output).mpr h⟩

theorem mergeChannels_nil_iff {α : Type} (t : List (Event α)) :
    MergeChannels ([] : List (List α)) t ↔ t = [Event.close] := by
  constructor
  · rintro ⟨out, hm, rfl⟩
    rw [Merge.eq_nil_of_nil hm]
    rfl
  · rintro rfl
    exact ⟨[], Merge.nil_nil, rfl⟩

theorem fanningStageTrace_one_iff {α : Type} (f : ProcessFn α)
    (input : List α) (t : List (Event α)) :
    fanningStageTrace f 1 input t ↔ t = stageFnFactory f input := by
  constructor
  · rintro ⟨parts, hlen, hin, out, hm, rfl⟩
    rcases hin with h0 | hin
    · exact absurd h0 one_ne_zero
    obtain ⟨p, rfl⟩ := length_eq_one_exists hlen
    have hp : input = p := Merge.single_eq hin p rfl
    subst hp
    have hout : out = itemsOf (stageFnFactory f input) :=
      Merge.single_eq hm (itemsOf (stageFnFactory f input)) (by simp)
    rw [hout, itemsOf_stageFnFactory, stageFnFactory_eq]
  · rintro rfl
    refine ⟨[input], rfl, Or.inr (Merge.single_self input),
      itemsOf (stageFnFactory f input), ?_, ?_⟩
    · exact Merge.single_self (itemsOf (stageFnFactory f input))
    · rw [itemsOf_stageFnFactory, stageFnFactory_eq]

/-! The claims. -/

/-- C1: for every input stream and transformation, the Worker built by
`stageFnFactory` forwards each input item `x` as `f x` exactly once when
`f x` is not the absent sentinel and drops it otherwise (the delivered
items are exactly `input.filterMap f`, in order), and the output stream
is closed exactly once, as the last event, only after the input is fully
drained. -/
theorem C1_worker_contract (α : Type) (f : ProcessFn α) (input : List α) :
    stageFnFactory f input = (input.filterMap f).map Event.item ++ [Event.close] ∧
    itemsOf (stageFnFactory f input) = input.filterMap f ∧
    closeCount (stageFnFactory f input) = 1 ∧
    (stageFnFactory f input).getLast? = some Event.close := by
  refine ⟨stageFnFactory_eq f input, itemsOf_stageFnFactory f input, ?_, ?_⟩
  · rw [stageFnFactory_eq]
    exact closeCount_items_close _
  · rw [stageFnFactory_eq]
    exact getLast_append_single _ _

/-- C2: for every finite input and every pipeline whose stages all have
fan-out 1, the items reaching the final stage's output are exactly the
input mapped through each stage's transformation in stage order with
absent results removed (`specComposedOutput`), and this is the only
possible output of the wiring. -/
theorem C2_fanout_one_order (α : Type) (fs : List (ProcessFn α)) (input : List α) :
    runStages (fs.map (fun f => fanningStageFnFactory f 1)) input
      (specComposedOutput fs input) ∧
    ∀ output, runStages (fs.map (fun f => fanningStageFnFactory f 1)) input output →
      output = specComposedOutput fs input :=
  ⟨(runStages_fanout_one fs input _).mpr rfl,
    fun output h => (runStages_fanout_one fs input output).mp h⟩

/-- Witness for C2 at a concrete pipeline: one add-one stage on input
`[1, 2]` can and must produce `[2, 3]`. -/
theorem C2_fanout_one_order_witness :
    ([2, 3] : List Nat) = specComposedOutput [fun n => some (n + 1)] [1, 2] :=
  (C2_fanout_one_order Nat [fun n => some (n + 1)] [1, 2]).2 [2, 3]
    (C2_fanout_one_order Nat [fun n => some (n + 1)] [1, 2]).1

/-- C3: every possible output trace of `MergeChannels` carries exactly the
multiset union of the items of all inputs and closes exactly once, as the
last event, only after all inputs are drained; over zero inputs the output
closes immediately carrying no items. -/
theorem C3_mergeChannels_contract (α : Type) :
    (∀ (inChans : List (List α)) (t : List (Event α)), MergeChannels inChans t →
      Multiset.ofList (itemsOf t) = (inChans.map Multiset.ofList).sum ∧
      closeCount t = 1 ∧ t.getLast? = some Event.close) ∧
    (∀ t : List (Event α), MergeChannels ([] : List (List α)) t ↔ t = [Event.close]) := by
  constructor
  · rintro inChans t ⟨out, hm, rfl⟩
    refine ⟨?_, closeCount_items_close out, getLast_append_single _ _⟩
    rw [itemsOf_append, itemsOf_map_item, coe_sum_eq_flatten]
    simp only [itemsOf, List.append_nil]
    exact Multiset.coe_eq_coe.mpr (Merge.perm_flatten hm)
  · exact mergeChannels_nil_iff

/-- Witness for C3: merging the channels `[1]` and `[2]` can deliver
`2` before `1`, still carrying both items and closing once at the end. -/
theorem C3_mergeChannels_witness :
    Multiset.ofList (itemsOf [Event.item 2, Event.item 1, Event.close]) =
      (([[1], [2]] : List (List Nat)).map Multiset.ofList).sum ∧
    closeCount [Event.item (2 : Nat), Event.item 1, Event.close] = 1 ∧
    ([Event.item (2 : Nat), Event.item 1, Event.close]).getLast? = some Event.close :=
  (C3_mergeChannels_contract Nat).1 [[1], [2]] _
    ⟨[2, 1],
      Merge.step [[1]] 2 [] [] [1]
        (Merge.step [] 1 [] [[]] [] (Merge.done [[], []] (by simp))),
      rfl⟩

/-- C4: every possible trace of the drain goroutine signals `doneChan`
exactly once, as its last event, after pulling every item of the final
stage's output, which itself is a completed output of the whole stage
wiring; `Run` returns the trace predicate without blocking. -/
theorem C4_done_after_drain (α : Type) (p : Pipeline α) (inChan : List α)
    (t : List (RunEvent α)) (h : (Pipeline.Run p inChan).snd t) :
    doneCount t = 1 ∧ t.getLast? = some RunEvent.done ∧
    ∃ finalOut, runStages p inChan finalOut ∧
      t = finalOut.map RunEvent.pull ++ [RunEvent.done] := by
  obtain ⟨finalOut, hrun, rfl⟩ := h
  rw [drainLoop_eq]
  exact ⟨doneCount_pulls_done _, getLast_append_single _ _, finalOut, hrun, rfl⟩

/-- Witness for C4 at a concrete run: the stageless pipeline on input
`[5]` pulls `5` and then signals done. -/
theorem C4_done_after_drain_witness :
    doneCount [RunEvent.pull (5 : Nat), RunEvent.done] = 1 ∧
    ([RunEvent.pull (5 : Nat), RunEvent.done]).getLast? = some RunEvent.done ∧
    ∃ finalOut, runStages (Pipeline.New : Pipeline Nat) [5] finalOut ∧
      [RunEvent.pull (5 : Nat), RunEvent.done]
        = finalOut.map RunEvent.pull ++ [RunEvent.done] :=
  C4_done_after_drain Nat Pipeline.New [5] [RunEvent.pull 5, RunEvent.done]
    ⟨[5], rfl, rfl⟩

/-- C5: for every stage with a positive fan-out, every way of distributing
the input among the workers and interleaving their outputs yields the
same output multiset, namely the input multiset transformed with absent
results discarded; hence repeated runs on the same input yield the same
output multiset.  The claim's scope is fan-out greater than one, which
the positivity hypothesis covers. -/
theorem C5_fanout_multiset_invariant (α : Type) (f : ProcessFn α) (fanSize : Nat)
    (input output : List α) (hpos : 0 < fanSize)
    (h : fanningStageFnFactory f fanSize input output) :
    (↑output : Multiset α) = ↑(input.filterMap f) ∧
    ∀ (fanSize2 : Nat) (output2 : List α), 0 < fanSize2 →
      fanningStageFnFactory f fanSize2 input output2 →
      (↑output2 : Multiset α) = ↑output := by
  have h1 := Multiset.coe_eq_coe.mpr (fanningStageFnFactory_perm hpos h)
  refine ⟨h1, ?_⟩
  intro fanSize2 output2 hpos2 h2
  rw [Multiset.coe_eq_coe.mpr (fanningStageFnFactory_perm hpos2 h2), h1]

/-- Witness for C5: doubling over fan-out 2 on input `[1, 2]` can emit
`[4, 2]`, whose multiset is that of `[2, 4]`. -/
theorem C5_fanout_multiset_witness :
    (↑([4, 2] : List Nat) : Multiset Nat)
      = ↑(([1, 2] : List Nat).filterMap (fun n => some (n * 2))) :=
  (C5_fanout_multiset_invariant Nat (fun n => some (n * 2)) 2 [1, 2] [4, 2]
    (by decide)
    ⟨[[1], [2]], rfl,
      Or.inr (Merge.step [] 1 [] [[2]] [2]
        (Merge.step [[]] 2 [] [] [] (Merge.done [[], []] (by simp)))),
      Merge.step [[2]] 4 [] [] [2]
        (Merge.step [] 2 [] [[]] [] (Merge.done [[], []] (by simp)))⟩).1

/-- C6: `AddStage f` appends exactly the stage that `AddStageWithFanOut f 1`
appends, and a stage with fan-out 1 is observationally equivalent to a
single plain Worker applying `f`: its only possible output trace is the
Worker's trace, with the same items, order and closing behavior. -/
theorem C6_addStage_fanout_one (α : Type) :
    (∀ (p : Pipeline α) (f : ProcessFn α),
      Pipeline.AddStage p f = Pipeline.AddStageWithFanOut p f 1) ∧
    (∀ (f : ProcessFn α) (input : List α) (t : List (Event α)),
      fanningStageTrace f 1 input t ↔ t = stageFnFactory f input) :=
  ⟨fun _ _ => rfl, fanningStageTrace_one_iff⟩

/-- Witness for C6: the identity stage at fan-out 1 on input `[1]`
produces exactly the Worker trace `[item 1, close]`. -/
theorem C6_addStage_fanout_one_witness :
    fanningStageTrace (fun n : Nat => some n) 1 [1] [Event.item 1, Event.close] :=
  ((C6_addStage_fanout_one Nat).2 (fun n => some n) [1]
    [Event.item 1, Event.close]).mpr rfl

/-- C7: `Run` leaves the pipeline's stage list exactly as it was, and a
second invocation on the returned state describes an independent run
determined only by the stage list and its own input. -/
theorem C7_run_frame (α : Type) (p : Pipeline α) (in1 in2 : List α) :
    (Pipeline.Run p in1).fst = p ∧
    ∀ t, (Pipeline.Run ((Pipeline.Run p in1).fst) in2).snd t ↔
      ∃ finalOut, runStages p in2 finalOut ∧ t = drainLoop finalOut :=
  ⟨rfl, fun _ => Iff.rfl⟩

/-- Witness for C7: running the empty pipeline on `[1]` returns the stage
list unchanged. -/
theorem C7_run_frame_witness :
    (Pipeline.Run (Pipeline.New : Pipeline Nat) [1]).fst = Pipeline.New :=
  (C7_run_frame Nat Pipeline.New [1] [2]).1

/-- C8: `AddStageWithFanOut` accepts `fanSize = 0` without any guard,
appending the fan-out-0 stage as is; the merger over the resulting zero
worker channels closes its output immediately, so for every input — empty
or not — the stage's only possible item output is empty and its only
possible output trace is the immediate close: no item from the stage's
input ever reaches downstream. -/
theorem C8_fanout_zero (α : Type) :
    (∀ (p : Pipeline α) (f : ProcessFn α),
      Pipeline.AddStageWithFanOut p f 0 = p ++ [fanningStageFnFactory f 0]) ∧
    (∀ t : List (Event α), MergeChannels ([] : List (List α)) t ↔ t = [Event.close]) ∧
    (∀ (f : ProcessFn α) (input output : List α),
      fanningStageFnFactory f 0 input output ↔ output = []) ∧
    (∀ (f : ProcessFn α) (input : List α) (t : List (Event α)),
      fanningStageTrace f 0 input t ↔ t = [Event.close]) := by
  refine ⟨fun _ _ => rfl, mergeChannels_nil_iff, ?_, ?_⟩
  · intro f input output
    constructor
    · rintro ⟨parts, hlen, hin, hout⟩
      have hp : parts = [] := List.length_eq_zero.mp hlen
      subst hp
      exact Merge.eq_nil_of_nil hout
    · rintro rfl
      exact ⟨[], rfl, Or.inl rfl, Merge.nil_nil⟩
  · intro f input t
    constructor
    · rintro ⟨parts, hlen, hin, hmc⟩
      have hp : parts = [] := List.length_eq_zero.mp hlen
      subst hp
      exact (mergeChannels_nil_iff t).mp hmc
    · rintro rfl
      exact ⟨[], rfl, Or.inl rfl, (mergeChannels_nil_iff _).mpr rfl⟩

/-- Witness for C8 at a nonempty input: the fan-out-0 stage over
`[1, 2, 3]` admits the empty item output and the immediately closed
trace, and admits nothing else. -/
theorem C8_fanout_zero_witness :
    fanningStageTrace (fun n : Nat => some n) 0 [1, 2, 3] [Event.close] ∧
    ([] : List Nat) = [] :=
  ⟨((C8_fanout_zero Nat).2.2.2 (fun n => some n) [1, 2, 3] [Event.close]).mpr rfl,
    ((C8_fanout_zero Nat).2.2.1 (fun n => some n) [1, 2, 3] []).mp
      (((C8_fanout_zero Nat).2.2.1 (fun n => some n) [1, 2, 3] []).mpr rfl)⟩

/-- C9: running `1..9` through `add1` (fan-out 1) then `squareStage`
(fan-out 1), the drain's only possible trace pulls exactly
`4, 9, 16, 25, 36, 49, 64, 81, 100` in that order and then signals done. -/
theorem C9_concrete_scenario (t : List (RunEvent GoValue)) :
    (Pipeline.Run p9 input9).snd t ↔
      t = expected9.map RunEvent.pull ++ [RunEvent.done] := by
  have hspec : specComposedOutput [add1, squareStage] input9 = expected9 := by decide
  constructor
  · rintro ⟨finalOut, hrun, rfl⟩
    have hf : finalOut = expected9 := by
      have h := (runStages_fanout_one [add1, squareStage] input9 finalOut).mp hrun
      rw [h, hspec]
    rw [hf, drainLoop_eq]
  · rintro rfl
    exact ⟨expected9,
      (runStages_fanout_one [add1, squareStage] input9 expected9).mpr hspec.symm,
      (drainLoop_eq _).symm⟩

/-- Witness for C9: the expected trace is indeed a possible run. -/
theorem C9_concrete_scenario_witness :
    (Pipeline.Run p9 input9).snd (expected9.map RunEvent.pull ++ [RunEvent.done]) :=
  (C9_concrete_scenario _).mpr rfl

/-- C10: running a pipeline with zero stages is accepted: the drain reads
directly from the caller's input, pulls and discards every input item,
and signals done exactly after the input is closed and fully drained. -/
theorem C10_empty_pipeline (α : Type) (input : List α) (t : List (RunEvent α)) :
    (Pipeline.Run (Pipeline.New : Pipeline α) input).snd t ↔
      t = input.map RunEvent.pull ++ [RunEvent.done] := by
  constructor
  · rintro ⟨finalOut, hrun, rfl⟩
    have hf : finalOut = input := hrun
    rw [hf, drainLoop_eq]
  · rintro rfl
    exact ⟨input, rfl, (drainLoop_eq _).symm⟩

/-- Witness for C10: the stageless run on `[7]` pulls `7` and signals
done. -/
theorem C10_empty_pipeline_witness :
    (Pipeline.Run (Pipeline.New : Pipeline Nat) [7]).snd
      [RunEvent.pull 7, RunEvent.done] :=
  (C10_empty_pipeline Nat [7] _).mpr rfl

end PipelineVerif
